import Mathlib

/-!
Verification of the maximum-forward-matching Chinese segmenter (`src/Lab1/lab1.c`).

Shallow embedding of the segmentation core of `lab1.c`.  C strings are
modelled as `List Nat`: the list holds the bytes of the string strictly
before its terminating NUL (so every element of a list that models a C
string produced by `fgets`/`strdup` is nonzero).  Reading the byte just
past the end of a list (the NUL terminator) is modelled by `List.headD 0`.

Transcription note: in the copy of `lab1.c` being verified, the four
CJK curly-quote entries of `PUNCTUATIONS` (original characters with
UTF-8 bytes `e2 80 9c`, `e2 80 9d`, `e2 80 98`, `e2 80 99`) were mangled
to plain ASCII quote bytes by a smart-quote conversion, which makes those four
initializers syntactically ill-formed C; the last table entry kept its
original bytes `e2 80 9d`, and the separate 1-byte ASCII-quote entry
shows the ASCII quote was handled on purpose elsewhere.  The table below embeds
the only compilable reading: each of the four entries is the 3-byte
CJK quote character, matching its declared byte length 3.
-/

namespace Lab1

/-- C function `get_utf8_char_len` (`lab1.c:205-210`): byte length of the UTF-8
codepoint starting at the given position, decided from the lead byte
alone; any unrecognized lead byte defaults to 1. -/
def get_utf8_char_len (s : List Nat) : Nat :=
  let b := s.headD 0
  if b &&& 0x80 = 0 then 1
  else if b &&& 0xE0 = 0xC0 then 2
  else if b &&& 0xF0 = 0xE0 then 3
  else 1

/-- C `strncmp(s1, s2, n) == 0`: compare at most `n` bytes, stopping
early when both strings end together; bytes past the end of a list are
the NUL terminator (`headD 0`). -/
def strncmp_eq : List Nat → List Nat → Nat → Bool
  | _, _, 0 => true
  | s1, s2, n + 1 =>
    let c1 := s1.headD 0
    let c2 := s2.headD 0
    if c1 ≠ c2 then false
    else if c1 = 0 then true
    else strncmp_eq s1.tail s2.tail n

/-- The `PUNCTUATIONS` table (`lab1.c:223-231`): pairs of pattern bytes
and declared byte length, in source order. -/
def PUNCTUATIONS : List (List Nat × Nat) :=
  [([0xef, 0xbc, 0x8c], 3), ([0xe3, 0x80, 0x82], 3), ([0xef, 0xbc, 0x81], 3),
   ([0xef, 0xbc, 0x9f], 3), ([0xef, 0xbc, 0x9b], 3),
   ([0xef, 0xbc, 0x9a], 3), ([0xe2, 0x80, 0x9c], 3), ([0xe2, 0x80, 0x9d], 3),
   ([0xe2, 0x80, 0x98], 3), ([0xe2, 0x80, 0x99], 3),
   ([0xe3, 0x80, 0x8e], 3), ([0xe3, 0x80, 0x8f], 3), ([0xe3, 0x80, 0x90], 3),
   ([0xe3, 0x80, 0x91], 3), ([0xe3, 0x80, 0x8a], 3),
   ([0xe3, 0x80, 0x8b], 3), ([0xe3, 0x80, 0x81], 3), ([0xef, 0xbc, 0x88], 3),
   ([0xef, 0xbc, 0x89], 3), ([0xef, 0xbc, 0xbb], 3),
   ([0xef, 0xbc, 0xbd], 3), ([0xef, 0xbd, 0x9b], 3), ([0xef, 0xbd, 0x9d], 3),
   ([0xe2, 0x80, 0xbb], 3),
   ([0x28], 1), ([0x29], 1), ([0x5b], 1), ([0x5d], 1), ([0x7b], 1),
   ([0x7d], 1), ([0x22], 1), ([0xe2, 0x80, 0x9d], 3)]

/-- The scan over a punctuation table performed by `check_punctuation`
(`lab1.c:239-253`): first entry whose pattern `strncmp`-matches wins,
returning its declared length. -/
def check_punct_list : List (List Nat × Nat) → List Nat → Option Nat
  | [], _ => none
  | p :: ps, s => if strncmp_eq s p.1 p.2 then some p.2 else check_punct_list ps s

/-- C function `check_punctuation` (`lab1.c:239-253`): `some len` when the byte
stream starts with a punctuation pattern, `none` otherwise. -/
def check_punctuation (s : List Nat) : Option Nat :=
  check_punct_list PUNCTUATIONS s

/-- The linear `strcmp` scan over the dictionary array used at
`lab1.c:280-290`; `strcmp == 0` on NUL-free C strings is list equality. -/
def dict_contains (dict : List (List Nat)) (tok : List Nat) : Bool :=
  dict.any fun w => tok == w

/-- C function `is_stopword` (`lab1.c:159-166`): linear `strcmp` scan over the
stopword array. -/
def is_stopword (tok : List Nat) (stopwords : List (List Nat)) : Bool :=
  stopwords.any fun w => tok == w

/-- Constant `MAX_CHINESE_BYTES` (`lab1.c:96`). -/
def MAX_CHINESE_BYTES : Nat := 21

/-- The descending dictionary-match loop (`lab1.c:274-293`): try
candidate byte lengths `m, m-1, …, 1`; a length is considered only when
`start + match_len <= len`; the first length whose extracted substring
is in the dictionary is returned. -/
def try_lengths (line : List Nat) (start : Nat) (dict : List (List Nat)) :
    Nat → Option Nat
  | 0 => none
  | m + 1 =>
    if start + (m + 1) ≤ line.length &&
        dict_contains dict ((line.drop start).take (m + 1)) then
      some (m + 1)
    else try_lengths line start dict m

/-- One iteration of the `while` loop of `segment_line_in_memory`,
as observable data: position, consumed byte length, and (for the two
token-producing branches) the extracted token and whether it is emitted
to the output file and the frequency table. -/
inductive SegStep where
  | punct (pos len : Nat)
  | word (pos len : Nat) (tok : List Nat) (keep : Bool)
  | fall (pos len : Nat) (tok : List Nat) (keep : Bool)
  deriving DecidableEq, Repr

/-- Cursor position at which the step occurred. -/
def stepPos : SegStep → Nat
  | .punct p _ => p
  | .word p _ _ _ => p
  | .fall p _ _ _ => p

/-- Number of bytes the step advances the cursor by. -/
def stepLen : SegStep → Nat
  | .punct _ l => l
  | .word _ l _ _ => l
  | .fall _ l _ _ => l

/-- The token the step writes to the output and the frequency table,
if any. -/
def stepTok : SegStep → Option (List Nat)
  | .punct _ _ => none
  | .word _ _ tok keep => if keep then some tok else none
  | .fall _ _ tok keep => if keep then some tok else none

/-- The body of one iteration of `segment_line_in_memory`
(`lab1.c:264-309`): punctuation check first, then the maximum
dictionary match, then the single-codepoint fallback with its
punctuation/stopword re-check.  The extracted buffers (`temp`) are
`(line.drop start).take _`, exactly what `strncpy` from a NUL-free
line leaves in the zeroed buffer. -/
def segment_step (line : List Nat) (dict stopwords : List (List Nat))
    (start : Nat) : SegStep :=
  match check_punctuation (line.drop start) with
  | some pl => SegStep.punct start pl
  | none =>
    match try_lengths line start dict MAX_CHINESE_BYTES with
    | some ml =>
      SegStep.word start ml ((line.drop start).take ml)
        (!is_stopword ((line.drop start).take ml) stopwords)
    | none =>
      SegStep.fall start (get_utf8_char_len (line.drop start))
        ((line.drop start).take (get_utf8_char_len (line.drop start)))
        ((check_punctuation
            ((line.drop start).take (get_utf8_char_len (line.drop start)))).isNone &&
          !is_stopword
            ((line.drop start).take (get_utf8_char_len (line.drop start))) stopwords)

/-- The `while (start < len)` loop of `segment_line_in_memory`, with an
explicit iteration budget (each iteration advances `start` by at least
one byte, so a budget of `line.length` runs the loop to completion;
this is proved below). -/
def segment_iter (line : List Nat) (dict stopwords : List (List Nat)) :
    Nat → Nat → List SegStep
  | 0, _ => []
  | fuel + 1, start =>
    if start < line.length then
      segment_step line dict stopwords start ::
        segment_iter line dict stopwords fuel
          (start + stepLen (segment_step line dict stopwords start))
    else []

/-- C function `segment_line_in_memory` (`lab1.c:258-311`): the full trace of loop
iterations on one line. -/
def segment_line_in_memory (line : List Nat) (dict stopwords : List (List Nat)) :
    List SegStep :=
  segment_iter line dict stopwords line.length 0

/-- Tokens written (bracketed) to the segmented-output file and passed
to `add_token_count`, in order. -/
def emitted (trace : List SegStep) : List (List Nat) :=
  trace.filterMap stepTok

/-- Emitted tokens together with the cursor position they start at. -/
def tokens_of (trace : List SegStep) : List (Nat × List Nat) :=
  trace.filterMap fun s => (stepTok s).map fun tok => (stepPos s, tok)

/-- Cursor position after executing a trace that starts at `a`. -/
def finalPos (trace : List SegStep) (a : Nat) : Nat :=
  trace.foldl (fun a s => a + stepLen s) a

/-- Predicate `covers trace a b`: the steps are contiguous, the first starting at
`a`, each next one starting where the previous ended, ending at `b`. -/
def covers : List SegStep → Nat → Nat → Bool
  | [], a, b => a == b
  | s :: rest, a, b => stepPos s == a && covers rest (a + stepLen s) b

/-- The global frequency state (`lab1.c:107-110`): the `g_word_counts`
array in insertion order, and `g_word_count`, the number of calls to
`add_token_count`.  (`g_word_total`, the number of distinct entries, is
`counts.length`; allocation failure is outside the model.) -/
structure FreqTable where
  counts : List (List Nat × Nat)
  total : Nat
  deriving DecidableEq, Repr

/-- The membership scan of `add_token_count` (`lab1.c:186-196`):
increment the first entry whose word `strcmp`-equals the token, or
append a fresh entry with count 1. -/
def bump_counts : List (List Nat × Nat) → List Nat → List (List Nat × Nat)
  | [], tok => [(tok, 1)]
  | (w, c) :: rest, tok =>
    if w = tok then (w, c + 1) :: rest else (w, c) :: bump_counts rest tok

/-- C function `add_token_count` (`lab1.c:173-200`): `g_word_count` is incremented
on every call, before the membership scan. -/
def add_token_count (t : FreqTable) (tok : List Nat) : FreqTable :=
  { counts := bump_counts t.counts tok, total := t.total + 1 }

/-- Count stored for a token: the count of the first matching entry, `0`
when the token has no entry. -/
def get_count : List (List Nat × Nat) → List Nat → Nat
  | [], _ => 0
  | (w, c) :: rest, tok => if w = tok then c else get_count rest tok

/-- Effect of one loop iteration on the frequency state:
`add_token_count` runs exactly when a token is emitted. -/
def stepRecord (t : FreqTable) (s : SegStep) : FreqTable :=
  match stepTok s with
  | some tok => add_token_count t tok
  | none => t

/-- Frequency state after running a whole trace. -/
def run_record (t : FreqTable) (trace : List SegStep) : FreqTable :=
  trace.foldl stepRecord t

/-- Fuel-bounded walk deciding whether a byte string is a concatenation
of codepoints as delimited by `get_utf8_char_len` (each codepoint's
byte length fits inside the string). -/
def utf8_wf_fuel : Nat → List Nat → Bool
  | 0, _ => false
  | _ + 1, [] => true
  | f + 1, b :: rest =>
    decide (get_utf8_char_len (b :: rest) ≤ (b :: rest).length) &&
      utf8_wf_fuel f ((b :: rest).drop (get_utf8_char_len (b :: rest)))

/-- A byte string is UTF-8 well-formed for the scanner of this program when
the walk from its start by `get_utf8_char_len` lands exactly on its
end. -/
def utf8_wf (l : List Nat) : Bool :=
  utf8_wf_fuel (l.length + 1) l

/-- Fuel-bounded list of codepoint boundaries (byte offsets) reached by
walking a byte string from offset 0 with `get_utf8_char_len`; the end
offset of an empty remainder is included. -/
def utf8_cuts_fuel : Nat → List Nat → List Nat
  | 0, _ => []
  | _ + 1, [] => [0]
  | f + 1, b :: rest =>
    0 :: (utf8_cuts_fuel f
        ((b :: rest).drop (get_utf8_char_len (b :: rest)))).map
      (· + get_utf8_char_len (b :: rest))

/-- Codepoint boundaries of a line, per the scanner of the program. -/
def utf8_cuts (l : List Nat) : List Nat :=
  utf8_cuts_fuel (l.length + 1) l

/-- C function `cmp_wordcount` (`lab1.c:317-321`): the `qsort` comparator,
`wb->count - wa->count` (descending by count, no other key). -/
def cmp_wordcount (a b : List Nat × Nat) : Int :=
  (b.2 : Int) - (a.2 : Int)

/-- The order realized by the comparator: `a` may come before `b`
exactly when `cmp_wordcount a b <= 0`. -/
def wc_le (a b : List Nat × Nat) : Prop :=
  cmp_wordcount a b ≤ 0

instance : DecidableRel wc_le := fun a b => by
  unfold wc_le
  infer_instance

instance : IsTotal (List Nat × Nat) wc_le :=
  ⟨fun a b => by unfold wc_le cmp_wordcount; omega⟩

instance : IsTrans (List Nat × Nat) wc_le :=
  ⟨fun a b c h1 h2 => by
    unfold wc_le cmp_wordcount at *
    omega⟩

/-- The `qsort(g_word_counts, …, cmp_wordcount)` call of `main`
(`lab1.c:363`), modelled as a comparison sort satisfying the `qsort`
contract for `cmp_wordcount` (a permutation, ordered so an element is
placed before another whenever the comparator allows it). -/
def sort_wordcounts (l : List (List Nat × Nat)) : List (List Nat × Nat) :=
  List.insertionSort wc_le l

/-- The final report of `main` (`lab1.c:368-371`): the first
`min 10 total` entries of the sorted frequency array. -/
def top_report (l : List (List Nat × Nat)) : List (List Nat × Nat) :=
  (sort_wordcounts l).take 10

/-- Loop body of the variant tokenizer whose fallback branch omits the
punctuation re-check on the extracted codepoint: the fallback token is
kept exactly when it is not a stopword. -/
def segment_step_nrc (line : List Nat) (dict stopwords : List (List Nat))
    (start : Nat) : SegStep :=
  match check_punctuation (line.drop start) with
  | some pl => SegStep.punct start pl
  | none =>
    match try_lengths line start dict MAX_CHINESE_BYTES with
    | some ml =>
      SegStep.word start ml ((line.drop start).take ml)
        (!is_stopword ((line.drop start).take ml) stopwords)
    | none =>
      SegStep.fall start (get_utf8_char_len (line.drop start))
        ((line.drop start).take (get_utf8_char_len (line.drop start)))
        (!is_stopword
          ((line.drop start).take (get_utf8_char_len (line.drop start))) stopwords)

/-- Loop of the variant tokenizer without the fallback punctuation
re-check. -/
def segment_iter_nrc (line : List Nat) (dict stopwords : List (List Nat)) :
    Nat → Nat → List SegStep
  | 0, _ => []
  | fuel + 1, start =>
    if start < line.length then
      segment_step_nrc line dict stopwords start ::
        segment_iter_nrc line dict stopwords fuel
          (start + stepLen (segment_step_nrc line dict stopwords start))
    else []

/-- The variant tokenizer without the fallback punctuation re-check. -/
def segment_line_nrc (line : List Nat) (dict stopwords : List (List Nat)) :
    List SegStep :=
  segment_iter_nrc line dict stopwords line.length 0

/-! ## Basic facts about the scanner and the string primitives -/

theorem get_len_pos (s : List Nat) : 1 ≤ get_utf8_char_len s := by
  simp only [get_utf8_char_len]
  split_ifs <;> omega

theorem get_len_le_three (s : List Nat) : get_utf8_char_len s ≤ 3 := by
  simp only [get_utf8_char_len]
  split_ifs <;> omega

theorem get_len_congr {s t : List Nat} (h : s.headD 0 = t.headD 0) :
    get_utf8_char_len s = get_utf8_char_len t := by
  simp only [get_utf8_char_len, h]

theorem headD_take {s : List Nat} {n : Nat} (hn : 1 ≤ n) :
    (s.take n).headD 0 = s.headD 0 := by
  cases s with
  | nil => simp
  | cons a s' =>
    cases n with
    | zero => omega
    | succ m => simp

theorem prefix_headD {s t : List Nat} (h : t <+: s) (ht : t ≠ []) :
    s.headD 0 = t.headD 0 := by
  obtain ⟨u, rfl⟩ := h
  cases t with
  | nil => exact absurd rfl ht
  | cons a t' => simp

theorem take_pre (n : Nat) (l : List Nat) : l.take n <+: l :=
  List.take_prefix n l

theorem prefix_drop_of_le {a b : List Nat} {n : Nat} (h : a <+: b)
    (hn : n ≤ a.length) : a.drop n <+: b.drop n := by
  obtain ⟨u, rfl⟩ := h
  rw [List.drop_append_of_le_length hn]
  exact ⟨u, rfl⟩

theorem strncmp_eq_nil_cons (c : Nat) (p' : List Nat) (n : Nat) :
    strncmp_eq [] (c :: p') (n + 1) = if (0 : Nat) ≠ c then false else true :=
  rfl

theorem strncmp_eq_cons_cons (a c : Nat) (s' p' : List Nat) (n : Nat) :
    strncmp_eq (a :: s') (c :: p') (n + 1) =
      if a ≠ c then false else if a = 0 then true else strncmp_eq s' p' n :=
  rfl

/-- Matching `strncmp(s, pat, n) == 0` against a pattern that has exactly `n`
nonzero bytes holds exactly when `s` has at least `n` bytes and its
first `n` bytes are the pattern. -/
theorem strncmp_eq_iff :
    ∀ (pat : List Nat), (∀ b ∈ pat, b ≠ 0) →
      ∀ (s : List Nat), (strncmp_eq s pat pat.length = true ↔
        pat.length ≤ s.length ∧ s.take pat.length = pat) := by
  intro pat
  induction pat with
  | nil =>
    intro _ s
    simp [strncmp_eq]
  | cons c pat' ih =>
    intro hnz s
    have hc : c ≠ 0 := hnz c (by simp)
    have hnz' : ∀ b ∈ pat', b ≠ 0 := fun b hb => hnz b (by simp [hb])
    cases s with
    | nil =>
      rw [List.length_cons, strncmp_eq_nil_cons,
        if_pos (fun h => hc h.symm)]
      simp
    | cons a s' =>
      rw [List.length_cons, strncmp_eq_cons_cons]
      by_cases hac : a = c
      · subst hac
        rw [if_neg (by simp), if_neg hc, ih hnz' s']
        simp [List.take_succ_cons, Nat.succ_le_succ_iff]
      · rw [if_pos hac]
        constructor
        · intro h
          exact absurd h (by simp)
        · rintro ⟨-, h⟩
          rw [List.take_succ_cons] at h
          exact absurd (List.head_eq_of_cons_eq h) hac

/-- Every punctuation-table pattern consists of exactly its declared
number of bytes, all nonzero, forms a single codepoint of the scanner,
and in particular is UTF-8 well-formed. -/
theorem punct_entry_facts : ∀ p ∈ PUNCTUATIONS,
    p.1.length = p.2 ∧ (∀ b ∈ p.1, b ≠ 0) ∧ 1 ≤ p.2 ∧
      get_utf8_char_len p.1 = p.2 ∧ utf8_wf p.1 = true := by
  decide

theorem check_punct_list_some {ps : List (List Nat × Nat)} {s : List Nat}
    {l : Nat} (h : check_punct_list ps s = some l) :
    ∃ p ∈ ps, p.2 = l ∧ strncmp_eq s p.1 p.2 = true := by
  induction ps with
  | nil => simp [check_punct_list] at h
  | cons p ps ih =>
    by_cases hm : strncmp_eq s p.1 p.2 = true
    · refine ⟨p, by simp, ?_, hm⟩
      simp only [check_punct_list, if_pos hm, Option.some.injEq] at h
      exact h
    · simp only [check_punct_list, if_neg hm] at h
      obtain ⟨q, hq, hql, hqm⟩ := ih h
      exact ⟨q, by simp [hq], hql, hqm⟩

theorem check_punct_list_none {ps : List (List Nat × Nat)} {s : List Nat}
    (h : check_punct_list ps s = none) :
    ∀ p ∈ ps, strncmp_eq s p.1 p.2 = false := by
  induction ps with
  | nil => simp
  | cons p ps ih =>
    by_cases hm : strncmp_eq s p.1 p.2 = true
    · simp [check_punct_list, if_pos hm] at h
    · simp only [check_punct_list, if_neg hm] at h
      intro q hq
      rcases List.mem_cons.1 hq with rfl | hq'
      · revert hm
        cases strncmp_eq s q.1 q.2 <;> simp
      · exact ih h q hq'

theorem check_punct_list_none_of {ps : List (List Nat × Nat)} {s : List Nat}
    (h : ∀ p ∈ ps, strncmp_eq s p.1 p.2 = false) :
    check_punct_list ps s = none := by
  induction ps with
  | nil => rfl
  | cons p ps ih =>
    have hp := h p (by simp)
    simp only [check_punct_list, hp, Bool.false_eq_true, if_false]
    exact ih fun q hq => h q (by simp [hq])

/-! ## UTF-8 well-formedness and codepoint boundaries -/

theorem utf8_wf_fuel_congr : ∀ f g l, l.length < f → l.length < g →
    utf8_wf_fuel f l = utf8_wf_fuel g l := by
  intro f
  induction f with
  | zero => intro g l hf; omega
  | succ f ih =>
    intro g l hf hg
    cases l with
    | nil =>
      cases g with
      | zero => omega
      | succ g => rfl
    | cons b rest =>
      cases g with
      | zero => omega
      | succ g =>
        simp only [utf8_wf_fuel]
        have hk := get_len_pos (b :: rest)
        have hlen : ((b :: rest).drop (get_utf8_char_len (b :: rest))).length =
            (b :: rest).length - get_utf8_char_len (b :: rest) :=
          List.length_drop _ _
        have hlt : 0 < (b :: rest).length := by simp
        rw [ih g _ (by omega) (by omega)]

theorem utf8_wf_cons (b : Nat) (rest : List Nat) :
    utf8_wf (b :: rest) =
      (decide (get_utf8_char_len (b :: rest) ≤ (b :: rest).length) &&
        utf8_wf ((b :: rest).drop (get_utf8_char_len (b :: rest)))) := by
  show utf8_wf_fuel ((b :: rest).length + 1) (b :: rest) = _
  simp only [utf8_wf_fuel]
  have hk := get_len_pos (b :: rest)
  have hlen : ((b :: rest).drop (get_utf8_char_len (b :: rest))).length =
      (b :: rest).length - get_utf8_char_len (b :: rest) :=
    List.length_drop _ _
  have hlt : 0 < (b :: rest).length := by simp
  have he : utf8_wf_fuel (b :: rest).length
      ((b :: rest).drop (get_utf8_char_len (b :: rest))) =
        utf8_wf ((b :: rest).drop (get_utf8_char_len (b :: rest))) :=
    utf8_wf_fuel_congr _ _ _ (by omega) (by omega)
  rw [he]

theorem utf8_wf_nil : utf8_wf [] = true := rfl

theorem utf8_wf_ne_nil {l : List Nat} (hl : l ≠ []) :
    utf8_wf l = true ↔
      get_utf8_char_len l ≤ l.length ∧
        utf8_wf (l.drop (get_utf8_char_len l)) = true := by
  cases l with
  | nil => exact absurd rfl hl
  | cons b rest =>
    rw [utf8_wf_cons]
    simp

/-- A byte string forming a single codepoint of the scanner is
well-formed. -/
theorem utf8_wf_single {t : List Nat} (h : get_utf8_char_len t = t.length) :
    utf8_wf t = true := by
  cases t with
  | nil => rfl
  | cons b rest =>
    rw [utf8_wf_cons, h, List.drop_length, utf8_wf_nil]
    simp

theorem utf8_cuts_fuel_congr : ∀ f g l, l.length < f → l.length < g →
    utf8_cuts_fuel f l = utf8_cuts_fuel g l := by
  intro f
  induction f with
  | zero => intro g l hf; omega
  | succ f ih =>
    intro g l hf hg
    cases l with
    | nil =>
      cases g with
      | zero => omega
      | succ g => rfl
    | cons b rest =>
      cases g with
      | zero => omega
      | succ g =>
        simp only [utf8_cuts_fuel]
        have hk := get_len_pos (b :: rest)
        have hlen : ((b :: rest).drop (get_utf8_char_len (b :: rest))).length =
            (b :: rest).length - get_utf8_char_len (b :: rest) :=
          List.length_drop _ _
        have hlt : 0 < (b :: rest).length := by simp
        rw [ih g _ (by omega) (by omega)]

theorem utf8_cuts_nil : utf8_cuts [] = [0] := rfl

theorem utf8_cuts_cons (b : Nat) (rest : List Nat) :
    utf8_cuts (b :: rest) =
      0 :: (utf8_cuts ((b :: rest).drop (get_utf8_char_len (b :: rest)))).map
        (· + get_utf8_char_len (b :: rest)) := by
  show utf8_cuts_fuel ((b :: rest).length + 1) (b :: rest) = _
  simp only [utf8_cuts_fuel]
  have hk := get_len_pos (b :: rest)
  have hlen : ((b :: rest).drop (get_utf8_char_len (b :: rest))).length =
      (b :: rest).length - get_utf8_char_len (b :: rest) :=
    List.length_drop _ _
  have hlt : 0 < (b :: rest).length := by simp
  have he : utf8_cuts_fuel (b :: rest).length
      ((b :: rest).drop (get_utf8_char_len (b :: rest))) =
        utf8_cuts ((b :: rest).drop (get_utf8_char_len (b :: rest))) :=
    utf8_cuts_fuel_congr _ _ _ (by omega) (by omega)
  rw [he]

theorem utf8_cuts_zero (l : List Nat) : 0 ∈ utf8_cuts l := by
  cases l with
  | nil => simp [utf8_cuts_nil]
  | cons b rest => rw [utf8_cuts_cons]; simp

/-- A boundary strictly inside the line is followed by another boundary
one scanner codepoint further. -/
theorem cuts_mem_step : ∀ fuel (l : List Nat) (p : Nat), l.length ≤ fuel →
    p ∈ utf8_cuts l → p < l.length →
    p + get_utf8_char_len (l.drop p) ∈ utf8_cuts l := by
  intro fuel
  induction fuel with
  | zero =>
    intro l p hf hp hlt
    omega
  | succ f ih =>
    intro l p hf hp hlt
    cases l with
    | nil => simp at hlt
    | cons b rest =>
      rw [utf8_cuts_cons] at hp ⊢
      rcases List.mem_cons.1 hp with rfl | hmap
      · refine List.mem_cons_of_mem _ (List.mem_map.2 ⟨0, utf8_cuts_zero _, ?_⟩)
        simp
      · obtain ⟨q, hq, hqe⟩ := List.mem_map.1 hmap
        by_cases hk : get_utf8_char_len (b :: rest) ≤ (b :: rest).length
        · have hql : q < ((b :: rest).drop (get_utf8_char_len (b :: rest))).length := by
            rw [List.length_drop]
            have := get_len_pos (b :: rest)
            omega
          have hfl : ((b :: rest).drop (get_utf8_char_len (b :: rest))).length ≤ f := by
            rw [List.length_drop]
            have := get_len_pos (b :: rest)
            omega
          have hstep := ih _ q hfl hq hql
          refine List.mem_cons_of_mem _ (List.mem_map.2 ⟨_, hstep, ?_⟩)
          rw [List.drop_drop]
          have hpq : get_utf8_char_len (b :: rest) + q = p := by omega
          rw [hpq]
          omega
        · have hdrop : (b :: rest).drop (get_utf8_char_len (b :: rest)) = [] :=
            List.drop_eq_nil_of_le (by omega)
          rw [hdrop, utf8_cuts_nil] at hq
          simp at hq
          subst hq
          omega

/-- Walking past a well-formed prefix of the remainder of the line
takes one scanner boundary to another. -/
theorem cuts_advance : ∀ fuel (tok l : List Nat) (start : Nat), tok.length ≤ fuel →
    start ∈ utf8_cuts l → utf8_wf tok = true → tok <+: l.drop start →
    start + tok.length ∈ utf8_cuts l := by
  intro fuel
  induction fuel with
  | zero =>
    intro tok l start hf hs _ _
    have : tok = [] := List.eq_nil_of_length_eq_zero (by omega)
    subst this
    simpa using hs
  | succ f ih =>
    intro tok l start hf hs hwf hpre
    cases tok with
    | nil => simpa using hs
    | cons b t' =>
      obtain ⟨hkle, hwt⟩ := (utf8_wf_ne_nil (by simp)).1 hwf
      have hk1 : 1 ≤ get_utf8_char_len (b :: t') := get_len_pos _
      have hhead : (l.drop start).headD 0 = (b :: t').headD 0 :=
        prefix_headD hpre (by simp)
      have hgl : get_utf8_char_len (l.drop start) = get_utf8_char_len (b :: t') :=
        get_len_congr hhead
      have hlt : start < l.length := by
        have hle := hpre.length_le
        rw [List.length_drop] at hle
        have : 0 < (b :: t').length := by simp
        omega
      have hstep := cuts_mem_step l.length l start (le_refl _) hs hlt
      rw [hgl] at hstep
      have hpre' : (b :: t').drop (get_utf8_char_len (b :: t')) <+:
          l.drop (start + get_utf8_char_len (b :: t')) := by
        have h2 := prefix_drop_of_le hpre hkle
        rw [List.drop_drop] at h2
        exact h2
      have hfl : ((b :: t').drop (get_utf8_char_len (b :: t'))).length ≤ f := by
        rw [List.length_drop]
        have : (b :: t').length ≤ f + 1 := hf
        omega
      have ih' := ih _ l _ hfl hstep hwt hpre'
      rw [List.length_drop] at ih'
      have harith : start + get_utf8_char_len (b :: t') +
          ((b :: t').length - get_utf8_char_len (b :: t')) =
            start + (b :: t').length := by omega
      rwa [harith] at ih'

/-- Dropping a well-formed prefix from a well-formed byte string leaves
a well-formed byte string. -/
theorem wf_drop_pre : ∀ fuel (tok l : List Nat), tok.length ≤ fuel →
    utf8_wf l = true → utf8_wf tok = true → tok <+: l →
    utf8_wf (l.drop tok.length) = true := by
  intro fuel
  induction fuel with
  | zero =>
    intro tok l hf hl _ _
    have : tok = [] := List.eq_nil_of_length_eq_zero (by omega)
    subst this
    simpa using hl
  | succ f ih =>
    intro tok l hf hl hwf hpre
    cases tok with
    | nil => simpa using hl
    | cons b t' =>
      obtain ⟨hkle, hwt⟩ := (utf8_wf_ne_nil (by simp)).1 hwf
      have hlne : l ≠ [] := by
        obtain ⟨u, rfl⟩ := hpre
        simp
      have hhead : l.headD 0 = (b :: t').headD 0 := prefix_headD hpre (by simp)
      have hgl : get_utf8_char_len l = get_utf8_char_len (b :: t') :=
        get_len_congr hhead
      obtain ⟨hkll, hwl⟩ := (utf8_wf_ne_nil hlne).1 hl
      rw [hgl] at hkll hwl
      have hpre' : (b :: t').drop (get_utf8_char_len (b :: t')) <+:
          l.drop (get_utf8_char_len (b :: t')) :=
        prefix_drop_of_le hpre hkle
      have hfl : ((b :: t').drop (get_utf8_char_len (b :: t'))).length ≤ f := by
        rw [List.length_drop]
        have : (b :: t').length ≤ f + 1 := hf
        have := get_len_pos (b :: t')
        omega
      have ih' := ih _ _ hfl hwl hwt hpre'
      rw [List.length_drop, List.drop_drop] at ih'
      have harith : get_utf8_char_len (b :: t') +
          ((b :: t').length - get_utf8_char_len (b :: t')) = (b :: t').length := by omega
      rwa [harith] at ih'

/-- The single codepoint extracted by the fallback branch is
well-formed whenever it fits inside the remainder. -/
theorem wf_take_cp {l : List Nat} (hk : get_utf8_char_len l ≤ l.length) :
    utf8_wf (l.take (get_utf8_char_len l)) = true := by
  apply utf8_wf_single
  have h1 : (l.take (get_utf8_char_len l)).headD 0 = l.headD 0 :=
    headD_take (get_len_pos l)
  rw [get_len_congr h1, List.length_take]
  omega

/-! ## Specifications of the three loop branches -/

theorem check_punctuation_spec {s : List Nat} {l : Nat}
    (h : check_punctuation s = some l) :
    1 ≤ l ∧ l ≤ s.length ∧ s.take l <+: s ∧ (s.take l).length = l ∧
      utf8_wf (s.take l) = true := by
  obtain ⟨p, hp, hpl, hm⟩ := check_punct_list_some h
  obtain ⟨hlen, hnz, hpos, hcp, hwf⟩ := punct_entry_facts p hp
  subst hpl
  rw [← hlen] at hm
  obtain ⟨hle, htake⟩ := (strncmp_eq_iff p.1 hnz s).1 hm
  rw [hlen] at hle htake
  refine ⟨hpos, hle, take_pre _ _, ?_, ?_⟩
  · rw [htake, hlen]
  · rw [htake]
    exact hwf

theorem check_punct_take {s : List Nat} (h : check_punctuation s = none)
    (n : Nat) : check_punctuation (s.take n) = none := by
  apply check_punct_list_none_of
  intro p hp
  obtain ⟨hlen, hnz, hpos, -, -⟩ := punct_entry_facts p hp
  have hnone := check_punct_list_none h p hp
  by_contra hne
  have htrue : strncmp_eq (s.take n) p.1 p.2 = true := by
    revert hne
    cases strncmp_eq (s.take n) p.1 p.2 <;> simp
  rw [← hlen] at htrue
  obtain ⟨hle, htake⟩ := (strncmp_eq_iff p.1 hnz _).1 htrue
  rw [List.length_take] at hle
  have hlen_n : p.1.length ≤ n := by omega
  have hlen_s : p.1.length ≤ s.length := by omega
  rw [List.take_take, min_eq_left hlen_n] at htake
  have : strncmp_eq s p.1 p.1.length = true :=
    (strncmp_eq_iff p.1 hnz s).2 ⟨hlen_s, htake⟩
  rw [hlen] at this
  rw [this] at hnone
  exact absurd hnone (by simp)

theorem dict_contains_iff {dict : List (List Nat)} {tok : List Nat} :
    dict_contains dict tok = true ↔ tok ∈ dict := by
  constructor
  · intro h
    obtain ⟨w, hw, he⟩ := List.any_eq_true.1 h
    rw [beq_iff_eq] at he
    subst he
    exact hw
  · intro h
    exact List.any_eq_true.2 ⟨tok, h, by simp⟩

/-- What a successful run of the descending match loop guarantees: the
returned length is admissible, its substring is in the dictionary, and
no longer admissible length has its substring in the dictionary. -/
theorem try_lengths_spec : ∀ (m : Nat) {line : List Nat} {start : Nat}
    {dict : List (List Nat)} {L : Nat},
    try_lengths line start dict m = some L →
    1 ≤ L ∧ L ≤ m ∧ start + L ≤ line.length ∧
      dict_contains dict ((line.drop start).take L) = true ∧
      ∀ L', L < L' → L' ≤ m → start + L' ≤ line.length →
        dict_contains dict ((line.drop start).take L') = false := by
  intro m
  induction m with
  | zero =>
    intro line start dict L h
    simp [try_lengths] at h
  | succ m ih =>
    intro line start dict L h
    simp only [try_lengths] at h
    by_cases hc : (decide (start + (m + 1) ≤ line.length) &&
        dict_contains dict ((line.drop start).take (m + 1))) = true
    · rw [if_pos hc] at h
      obtain ⟨hle, hmem⟩ := Bool.and_eq_true_iff.1 hc
      have hL : L = m + 1 := by
        have := Option.some.inj h
        omega
      subst hL
      refine ⟨by omega, le_refl _, of_decide_eq_true hle, hmem, ?_⟩
      intro L' h1 h2 _
      omega
    · rw [if_neg hc] at h
      obtain ⟨h1, h2, h3, h4, h5⟩ := ih h
      refine ⟨h1, by omega, h3, h4, ?_⟩
      intro L' hL1 hL2 hL3
      by_cases hL' : L' ≤ m
      · exact h5 L' hL1 hL' hL3
      · have : L' = m + 1 := by omega
        subst this
        revert hc
        rw [decide_eq_true hL3]
        cases hmem : dict_contains dict ((line.drop start).take (m + 1)) <;> simp

/-! ## Branch equations and elementary facts for the loop body -/

theorem segment_step_punct {line : List Nat} {dict stops : List (List Nat)}
    {start pl : Nat} (hp : check_punctuation (line.drop start) = some pl) :
    segment_step line dict stops start = SegStep.punct start pl := by
  unfold segment_step
  rw [hp]

theorem segment_step_word {line : List Nat} {dict stops : List (List Nat)}
    {start ml : Nat} (hp : check_punctuation (line.drop start) = none)
    (hm : try_lengths line start dict MAX_CHINESE_BYTES = some ml) :
    segment_step line dict stops start =
      SegStep.word start ml ((line.drop start).take ml)
        (!is_stopword ((line.drop start).take ml) stops) := by
  unfold segment_step
  rw [hp, hm]

theorem segment_step_fall {line : List Nat} {dict stops : List (List Nat)}
    {start : Nat} (hp : check_punctuation (line.drop start) = none)
    (hm : try_lengths line start dict MAX_CHINESE_BYTES = none) :
    segment_step line dict stops start =
      SegStep.fall start (get_utf8_char_len (line.drop start))
        ((line.drop start).take (get_utf8_char_len (line.drop start)))
        ((check_punctuation
            ((line.drop start).take (get_utf8_char_len (line.drop start)))).isNone &&
          !is_stopword
            ((line.drop start).take (get_utf8_char_len (line.drop start))) stops) := by
  unfold segment_step
  rw [hp, hm]

theorem stepPos_seg (line : List Nat) (dict stops : List (List Nat)) (start : Nat) :
    stepPos (segment_step line dict stops start) = start := by
  cases hp : check_punctuation (line.drop start) with
  | some pl => rw [segment_step_punct hp]; rfl
  | none =>
    cases hm : try_lengths line start dict MAX_CHINESE_BYTES with
    | some ml => rw [segment_step_word hp hm]; rfl
    | none => rw [segment_step_fall hp hm]; rfl

theorem stepLen_seg_pos (line : List Nat) (dict stops : List (List Nat)) (start : Nat) :
    1 ≤ stepLen (segment_step line dict stops start) := by
  cases hp : check_punctuation (line.drop start) with
  | some pl =>
    rw [segment_step_punct hp]
    exact (check_punctuation_spec hp).1
  | none =>
    cases hm : try_lengths line start dict MAX_CHINESE_BYTES with
    | some ml =>
      rw [segment_step_word hp hm]
      exact (try_lengths_spec _ hm).1
    | none =>
      rw [segment_step_fall hp hm]
      exact get_len_pos _

theorem segment_iter_succ {line : List Nat} {dict stops : List (List Nat)}
    {fuel start : Nat} (h : start < line.length) :
    segment_iter line dict stops (fuel + 1) start =
      segment_step line dict stops start ::
        segment_iter line dict stops fuel
          (start + stepLen (segment_step line dict stops start)) := by
  have he : segment_iter line dict stops (fuel + 1) start =
      if start < line.length then
        segment_step line dict stops start ::
          segment_iter line dict stops fuel
            (start + stepLen (segment_step line dict stops start))
      else [] := rfl
  rw [he, if_pos h]

theorem segment_iter_stop {line : List Nat} {dict stops : List (List Nat)}
    {fuel start : Nat} (h : ¬ start < line.length) :
    segment_iter line dict stops fuel start = [] := by
  cases fuel with
  | zero => rfl
  | succ f =>
    have he : segment_iter line dict stops (f + 1) start =
        if start < line.length then
          segment_step line dict stops start ::
            segment_iter line dict stops f
              (start + stepLen (segment_step line dict stops start))
        else [] := rfl
    rw [he, if_neg h]

/-! ## Trace-level lemmas -/

theorem emitted_cons_none {s : SegStep} {rest : List SegStep}
    (h : stepTok s = none) : emitted (s :: rest) = emitted rest := by
  simp [emitted, List.filterMap_cons, h]

theorem emitted_cons_some {s : SegStep} {rest : List SegStep} {tok : List Nat}
    (h : stepTok s = some tok) : emitted (s :: rest) = tok :: emitted rest := by
  simp [emitted, List.filterMap_cons, h]

theorem tokens_of_cons_none {s : SegStep} {rest : List SegStep}
    (h : stepTok s = none) : tokens_of (s :: rest) = tokens_of rest := by
  simp [tokens_of, List.filterMap_cons, h]

theorem tokens_of_cons_some {s : SegStep} {rest : List SegStep} {tok : List Nat}
    (h : stepTok s = some tok) :
    tokens_of (s :: rest) = (stepPos s, tok) :: tokens_of rest := by
  simp [tokens_of, List.filterMap_cons, h]

theorem finalPos_nil (a : Nat) : finalPos [] a = a := rfl

theorem finalPos_cons (s : SegStep) (rest : List SegStep) (a : Nat) :
    finalPos (s :: rest) a = finalPos rest (a + stepLen s) := rfl

theorem covers_nil (a b : Nat) : covers [] a b = (a == b) := rfl

theorem covers_cons (s : SegStep) (rest : List SegStep) (a b : Nat) :
    covers (s :: rest) a b = ((stepPos s == a) && covers rest (a + stepLen s) b) :=
  rfl

theorem segment_iter_zero (line : List Nat) (dict stops : List (List Nat))
    (start : Nat) : segment_iter line dict stops 0 start = [] := rfl

/-- Every recorded loop iteration advances the cursor by at least one
byte. -/
theorem mem_seg_stepLen_pos (line : List Nat) (dict stops : List (List Nat)) :
    ∀ fuel start s, s ∈ segment_iter line dict stops fuel start →
      1 ≤ stepLen s := by
  intro fuel
  induction fuel with
  | zero =>
    intro start s h
    rw [segment_iter_zero] at h
    simp at h
  | succ f ih =>
    intro start s h
    by_cases hlt : start < line.length
    · rw [segment_iter_succ hlt] at h
      rcases List.mem_cons.1 h with rfl | h'
      · exact stepLen_seg_pos line dict stops start
      · exact ih _ _ h'
    · rw [segment_iter_stop hlt] at h
      simp at h

/-- The loop runs at most `line.length - start` iterations. -/
theorem seg_iter_length_le (line : List Nat) (dict stops : List (List Nat)) :
    ∀ fuel start,
      (segment_iter line dict stops fuel start).length ≤ line.length - start := by
  intro fuel
  induction fuel with
  | zero =>
    intro start
    rw [segment_iter_zero]
    simp
  | succ f ih =>
    intro start
    by_cases hlt : start < line.length
    · rw [segment_iter_succ hlt]
      have h1 := stepLen_seg_pos line dict stops start
      have h2 := ih (start + stepLen (segment_step line dict stops start))
      simp only [List.length_cons]
      omega
    · rw [segment_iter_stop hlt]
      simp

/-- With an iteration budget of `line.length - start` the loop reaches
its exit condition: the final cursor is at or past the end. -/
theorem seg_iter_complete (line : List Nat) (dict stops : List (List Nat)) :
    ∀ fuel start, line.length - start ≤ fuel →
      line.length ≤ finalPos (segment_iter line dict stops fuel start) start := by
  intro fuel
  induction fuel with
  | zero =>
    intro start h
    rw [segment_iter_zero, finalPos_nil]
    omega
  | succ f ih =>
    intro start h
    by_cases hlt : start < line.length
    · rw [segment_iter_succ hlt, finalPos_cons]
      have h1 := stepLen_seg_pos line dict stops start
      exact ih _ (by omega)
    · rw [segment_iter_stop hlt, finalPos_nil]
      omega

/-- The trace does not depend on the iteration budget once the budget
covers the remaining bytes: the fuel embedding is faithful to the
unbounded C `while` loop. -/
theorem seg_iter_congr (line : List Nat) (dict stops : List (List Nat)) :
    ∀ f g start, line.length - start ≤ f → line.length - start ≤ g →
      segment_iter line dict stops f start = segment_iter line dict stops g start := by
  intro f
  induction f with
  | zero =>
    intro g start hf hg
    have hstop : ¬ start < line.length := by omega
    rw [segment_iter_stop hstop, segment_iter_stop hstop]
  | succ f ih =>
    intro g start hf hg
    by_cases hlt : start < line.length
    · cases g with
      | zero => omega
      | succ g =>
        rw [segment_iter_succ hlt, segment_iter_succ hlt]
        have h1 := stepLen_seg_pos line dict stops start
        rw [ih g _ (by omega) (by omega)]
    · rw [segment_iter_stop hlt, segment_iter_stop hlt]

/-- Consecutive steps are contiguous: each starts where the previous
ended. -/
theorem seg_iter_covers_finalPos (line : List Nat) (dict stops : List (List Nat)) :
    ∀ fuel start,
      covers (segment_iter line dict stops fuel start) start
        (finalPos (segment_iter line dict stops fuel start) start) = true := by
  intro fuel
  induction fuel with
  | zero =>
    intro start
    rw [segment_iter_zero, finalPos_nil, covers_nil]
    simp
  | succ f ih =>
    intro start
    by_cases hlt : start < line.length
    · rw [segment_iter_succ hlt, finalPos_cons, covers_cons, stepPos_seg]
      simp only [beq_self_eq_true, Bool.true_and]
      exact ih _
    · rw [segment_iter_stop hlt, finalPos_nil, covers_nil]
      simp

/-- On a well-formed line with a well-formed dictionary, one loop
iteration stays inside the line and leaves a well-formed remainder. -/
theorem step_bound_wf {line : List Nat} {dict stops : List (List Nat)} {start : Nat}
    (hlt : start < line.length) (hwf : utf8_wf (line.drop start) = true)
    (hdict : ∀ w ∈ dict, utf8_wf w = true) :
    start + stepLen (segment_step line dict stops start) ≤ line.length ∧
      utf8_wf (line.drop (start + stepLen (segment_step line dict stops start))) = true := by
  have hdl : (line.drop start).length = line.length - start := List.length_drop _ _
  cases hp : check_punctuation (line.drop start) with
  | some pl =>
    rw [segment_step_punct hp]
    obtain ⟨h1, h2, hpre, hlen, hwfp⟩ := check_punctuation_spec hp
    have hw := wf_drop_pre ((line.drop start).take pl).length _ _
      (le_refl _) hwf hwfp hpre
    rw [hlen, List.drop_drop] at hw
    exact ⟨by show start + pl ≤ line.length; omega, hw⟩
  | none =>
    cases hm : try_lengths line start dict MAX_CHINESE_BYTES with
    | some ml =>
      rw [segment_step_word hp hm]
      obtain ⟨h1, h2, h3, hmem, -⟩ := try_lengths_spec _ hm
      have hwtok := hdict _ (dict_contains_iff.1 hmem)
      have hlen : ((line.drop start).take ml).length = ml := by
        rw [List.length_take]
        omega
      have hw := wf_drop_pre ((line.drop start).take ml).length _ _
        (le_refl _) hwf hwtok (take_pre _ _)
      rw [hlen, List.drop_drop] at hw
      exact ⟨by show start + ml ≤ line.length; omega, hw⟩
    | none =>
      rw [segment_step_fall hp hm]
      have hne : line.drop start ≠ [] := by
        apply List.ne_nil_of_length_pos
        omega
      obtain ⟨hk, hwd⟩ := (utf8_wf_ne_nil hne).1 hwf
      rw [List.drop_drop] at hwd
      exact ⟨by show start + get_utf8_char_len (line.drop start) ≤ line.length; omega, hwd⟩

/-- On a well-formed line with a well-formed dictionary, one loop
iteration takes a codepoint boundary to a codepoint boundary. -/
theorem step_advances_cuts {line : List Nat} {dict stops : List (List Nat)} {start : Nat}
    (hlt : start < line.length) (hcut : start ∈ utf8_cuts line)
    (hwf : utf8_wf (line.drop start) = true)
    (hdict : ∀ w ∈ dict, utf8_wf w = true) :
    start + stepLen (segment_step line dict stops start) ∈ utf8_cuts line := by
  have hdl : (line.drop start).length = line.length - start := List.length_drop _ _
  cases hp : check_punctuation (line.drop start) with
  | some pl =>
    rw [segment_step_punct hp]
    obtain ⟨h1, h2, hpre, hlen, hwfp⟩ := check_punctuation_spec hp
    have hc := cuts_advance ((line.drop start).take pl).length _ line start
      (le_refl _) hcut hwfp hpre
    rw [hlen] at hc
    exact hc
  | none =>
    cases hm : try_lengths line start dict MAX_CHINESE_BYTES with
    | some ml =>
      rw [segment_step_word hp hm]
      obtain ⟨h1, h2, h3, hmem, -⟩ := try_lengths_spec _ hm
      have hwtok := hdict _ (dict_contains_iff.1 hmem)
      have hlen : ((line.drop start).take ml).length = ml := by
        rw [List.length_take]
        omega
      have hc := cuts_advance ((line.drop start).take ml).length _ line start
        (le_refl _) hcut hwtok (take_pre _ _)
      rw [hlen] at hc
      exact hc
    | none =>
      rw [segment_step_fall hp hm]
      have hne : line.drop start ≠ [] := by
        apply List.ne_nil_of_length_pos
        omega
      obtain ⟨hk, -⟩ := (utf8_wf_ne_nil hne).1 hwf
      have hwtok := wf_take_cp hk
      have hlen : ((line.drop start).take (get_utf8_char_len (line.drop start))).length =
          get_utf8_char_len (line.drop start) := by
        rw [List.length_take]
        omega
      have hc := cuts_advance
        ((line.drop start).take (get_utf8_char_len (line.drop start))).length _ line start
        (le_refl _) hcut hwtok (take_pre _ _)
      rw [hlen] at hc
      exact hc

/-- On a well-formed line with a well-formed dictionary, the consumed
spans tile the line exactly from the cursor to the end. -/
theorem seg_iter_covers_wf (line : List Nat) (dict stops : List (List Nat))
    (hdict : ∀ w ∈ dict, utf8_wf w = true) :
    ∀ fuel start, line.length - start ≤ fuel → start ≤ line.length →
      utf8_wf (line.drop start) = true →
      covers (segment_iter line dict stops fuel start) start line.length = true := by
  intro fuel
  induction fuel with
  | zero =>
    intro start hf hle _
    rw [segment_iter_zero, covers_nil]
    have : start = line.length := by omega
    simp [this]
  | succ f ih =>
    intro start hf hle hwf
    by_cases hlt : start < line.length
    · rw [segment_iter_succ hlt, covers_cons, stepPos_seg]
      simp only [beq_self_eq_true, Bool.true_and]
      obtain ⟨hb, hw⟩ := step_bound_wf hlt hwf hdict
      have h1 := stepLen_seg_pos line dict stops start
      exact ih _ (by omega) hb hw
    · rw [segment_iter_stop hlt, covers_nil]
      have : start = line.length := by omega
      simp [this]

/-- The two ways a loop iteration can emit a token: a dictionary match
that is not a stopword, or a fallback codepoint passing the re-checks.
Either way the token is the prefix of the remainder of the declared
consumed length. -/
theorem step_tok_cases {line : List Nat} {dict stops : List (List Nat)}
    {start : Nat} {tok : List Nat}
    (h : stepTok (segment_step line dict stops start) = some tok) :
    check_punctuation (line.drop start) = none ∧
      ((∃ ml, try_lengths line start dict MAX_CHINESE_BYTES = some ml ∧
          tok = (line.drop start).take ml ∧
          stepLen (segment_step line dict stops start) = ml) ∨
        (try_lengths line start dict MAX_CHINESE_BYTES = none ∧
          tok = (line.drop start).take (get_utf8_char_len (line.drop start)) ∧
          stepLen (segment_step line dict stops start) =
            get_utf8_char_len (line.drop start))) := by
  cases hp : check_punctuation (line.drop start) with
  | some pl =>
    rw [segment_step_punct hp] at h
    simp [stepTok] at h
  | none =>
    cases hm : try_lengths line start dict MAX_CHINESE_BYTES with
    | some ml =>
      rw [segment_step_word hp hm] at h
      refine ⟨rfl, Or.inl ⟨ml, rfl, ?_, by rw [segment_step_word hp hm]; rfl⟩⟩
      simp only [stepTok] at h
      split at h
      · exact (Option.some.inj h).symm
      · exact absurd h (by simp)
    | none =>
      rw [segment_step_fall hp hm] at h
      refine ⟨rfl, Or.inr ⟨rfl, ?_, by rw [segment_step_fall hp hm]; rfl⟩⟩
      simp only [stepTok] at h
      split at h
      · exact (Option.some.inj h).symm
      · exact absurd h (by simp)

/-- Bounds on the byte length of an emitted token (true for any line
and dictionary). -/
theorem step_tok_bounds {line : List Nat} {dict stops : List (List Nat)}
    {start : Nat} {tok : List Nat} (hlt : start < line.length)
    (h : stepTok (segment_step line dict stops start) = some tok) :
    1 ≤ tok.length ∧ tok.length ≤ MAX_CHINESE_BYTES := by
  have hdl : (line.drop start).length = line.length - start := List.length_drop _ _
  obtain ⟨-, hcase⟩ := step_tok_cases h
  rcases hcase with ⟨ml, hm, rfl, -⟩ | ⟨-, rfl, -⟩
  · obtain ⟨h1, h2, h3, -, -⟩ := try_lengths_spec _ hm
    rw [List.length_take]
    constructor
    · omega
    · have hmax : MAX_CHINESE_BYTES = 21 := rfl
      omega
  · rw [List.length_take]
    have h1 := get_len_pos (line.drop start)
    have h2 := get_len_le_three (line.drop start)
    have hmax : MAX_CHINESE_BYTES = 21 := rfl
    constructor <;> omega

/-- On a well-formed remainder, the length of an emitted token equals
the consumed length of its iteration. -/
theorem step_tok_length_eq {line : List Nat} {dict stops : List (List Nat)}
    {start : Nat} {tok : List Nat} (hlt : start < line.length)
    (hwf : utf8_wf (line.drop start) = true)
    (h : stepTok (segment_step line dict stops start) = some tok) :
    tok.length = stepLen (segment_step line dict stops start) := by
  have hdl : (line.drop start).length = line.length - start := List.length_drop _ _
  obtain ⟨-, hcase⟩ := step_tok_cases h
  rcases hcase with ⟨ml, hm, rfl, hsl⟩ | ⟨-, rfl, hsl⟩
  · obtain ⟨h1, h2, h3, -, -⟩ := try_lengths_spec _ hm
    rw [hsl, List.length_take]
    omega
  · have hne : line.drop start ≠ [] := by
      apply List.ne_nil_of_length_pos
      omega
    obtain ⟨hk, -⟩ := (utf8_wf_ne_nil hne).1 hwf
    rw [hsl, List.length_take]
    omega

/-- Byte-length bounds for every emitted token of a full run. -/
theorem seg_iter_tok_len (line : List Nat) (dict stops : List (List Nat)) :
    ∀ fuel start p tok,
      (p, tok) ∈ tokens_of (segment_iter line dict stops fuel start) →
      1 ≤ tok.length ∧ tok.length ≤ MAX_CHINESE_BYTES := by
  intro fuel
  induction fuel with
  | zero =>
    intro start p tok h
    rw [segment_iter_zero] at h
    simp [tokens_of] at h
  | succ f ih =>
    intro start p tok h
    by_cases hlt : start < line.length
    · rw [segment_iter_succ hlt] at h
      cases hst : stepTok (segment_step line dict stops start) with
      | none =>
        rw [tokens_of_cons_none hst] at h
        exact ih _ _ _ h
      | some t =>
        rw [tokens_of_cons_some hst] at h
        rcases List.mem_cons.1 h with heq | h'
        · injection heq with hpe hte
          subst hte
          exact step_tok_bounds hlt hst
        · exact ih _ _ _ h'
    · rw [segment_iter_stop hlt] at h
      simp [tokens_of] at h

/-- On a well-formed line with a well-formed dictionary, every emitted
token begins and ends on a codepoint boundary of the line. -/
theorem seg_iter_tok_aligned (line : List Nat) (dict stops : List (List Nat))
    (hdict : ∀ w ∈ dict, utf8_wf w = true) :
    ∀ fuel start, line.length - start ≤ fuel → start ∈ utf8_cuts line →
      utf8_wf (line.drop start) = true →
      ∀ p tok, (p, tok) ∈ tokens_of (segment_iter line dict stops fuel start) →
        p ∈ utf8_cuts line ∧ p + tok.length ∈ utf8_cuts line := by
  intro fuel
  induction fuel with
  | zero =>
    intro start hf hcut hwf p tok h
    rw [segment_iter_zero] at h
    simp [tokens_of] at h
  | succ f ih =>
    intro start hf hcut hwf p tok h
    by_cases hlt : start < line.length
    · obtain ⟨hb, hw⟩ := @step_bound_wf line dict stops start hlt hwf hdict
      have hc := @step_advances_cuts line dict stops start hlt hcut hwf hdict
      have h1 := stepLen_seg_pos line dict stops start
      rw [segment_iter_succ hlt] at h
      cases hst : stepTok (segment_step line dict stops start) with
      | none =>
        rw [tokens_of_cons_none hst] at h
        exact ih _ (by omega) hc hw _ _ h
      | some t =>
        rw [tokens_of_cons_some hst] at h
        rcases List.mem_cons.1 h with heq | h'
        · injection heq with hpe hte
          subst hte
          rw [stepPos_seg] at hpe
          subst hpe
          refine ⟨hcut, ?_⟩
          rw [step_tok_length_eq hlt hwf hst]
          exact hc
        · exact ih _ (by omega) hc hw _ _ h'
    · rw [segment_iter_stop hlt] at h
      simp [tokens_of] at h

/-! ## Punctuation priority: the comma can never be emitted -/

/-- If a prefix extracted at some position is the full-width comma, the
punctuation check at that position must have fired. -/
theorem take_eq_comma_check {rem : List Nat} {L : Nat}
    (h : rem.take L = [0xef, 0xbc, 0x8c]) : check_punctuation rem = some 3 := by
  have hlen : (rem.take L).length = 3 := by rw [h]; rfl
  rw [List.length_take] at hlen
  have hL : 3 ≤ L := by omega
  have hrl : 3 ≤ rem.length := by omega
  have h3 : rem.take 3 = [0xef, 0xbc, 0x8c] := by
    have hc := congrArg (List.take 3) h
    rw [List.take_take, min_eq_left hL] at hc
    exact hc
  have hentry : strncmp_eq rem [0xef, 0xbc, 0x8c] 3 = true :=
    (strncmp_eq_iff [0xef, 0xbc, 0x8c] (by decide) rem).2 ⟨hrl, h3⟩
  show check_punct_list PUNCTUATIONS rem = some 3
  rw [show PUNCTUATIONS = ([0xef, 0xbc, 0x8c], 3) :: PUNCTUATIONS.tail from rfl]
  simp [check_punct_list, hentry]

/-- No run of the tokenizer, whatever the line, dictionary and stopword
set, ever emits the full-width comma as a token. -/
theorem comma_not_emitted_iter (line : List Nat) (dict stops : List (List Nat)) :
    ∀ fuel start,
      [0xef, 0xbc, 0x8c] ∉ emitted (segment_iter line dict stops fuel start) := by
  intro fuel
  induction fuel with
  | zero =>
    intro start
    rw [segment_iter_zero]
    simp [emitted]
  | succ f ih =>
    intro start
    by_cases hlt : start < line.length
    · rw [segment_iter_succ hlt]
      cases hst : stepTok (segment_step line dict stops start) with
      | none =>
        rw [emitted_cons_none hst]
        exact ih _
      | some t =>
        rw [emitted_cons_some hst]
        intro hmem
        rcases List.mem_cons.1 hmem with heq | h'
        · obtain ⟨hpnone, hcase⟩ := step_tok_cases hst
          rcases hcase with ⟨ml, -, htok, -⟩ | ⟨-, htok, -⟩
          · rw [htok] at heq
            rw [take_eq_comma_check heq.symm] at hpnone
            exact absurd hpnone (by simp)
          · rw [htok] at heq
            rw [take_eq_comma_check heq.symm] at hpnone
            exact absurd hpnone (by simp)
        · exact ih _ h'
    · rw [segment_iter_stop hlt]
      simp [emitted]

/-! ## The fallback punctuation re-check never fires -/

theorem segment_iter_nrc_zero (line : List Nat) (dict stops : List (List Nat))
    (start : Nat) : segment_iter_nrc line dict stops 0 start = [] := rfl

theorem segment_iter_nrc_succ {line : List Nat} {dict stops : List (List Nat)}
    {fuel start : Nat} (h : start < line.length) :
    segment_iter_nrc line dict stops (fuel + 1) start =
      segment_step_nrc line dict stops start ::
        segment_iter_nrc line dict stops fuel
          (start + stepLen (segment_step_nrc line dict stops start)) := by
  have he : segment_iter_nrc line dict stops (fuel + 1) start =
      if start < line.length then
        segment_step_nrc line dict stops start ::
          segment_iter_nrc line dict stops fuel
            (start + stepLen (segment_step_nrc line dict stops start))
      else [] := rfl
  rw [he, if_pos h]

theorem segment_iter_nrc_stop {line : List Nat} {dict stops : List (List Nat)}
    {fuel start : Nat} (h : ¬ start < line.length) :
    segment_iter_nrc line dict stops fuel start = [] := by
  cases fuel with
  | zero => rfl
  | succ f =>
    have he : segment_iter_nrc line dict stops (f + 1) start =
        if start < line.length then
          segment_step_nrc line dict stops start ::
            segment_iter_nrc line dict stops f
              (start + stepLen (segment_step_nrc line dict stops start))
        else [] := rfl
    rw [he, if_neg h]

/-- The two loop bodies agree: the fallback punctuation re-check on the
extracted codepoint cannot succeed when the top-of-loop check failed. -/
theorem segment_step_eq_nrc (line : List Nat) (dict stops : List (List Nat))
    (start : Nat) :
    segment_step line dict stops start = segment_step_nrc line dict stops start := by
  cases hp : check_punctuation (line.drop start) with
  | some pl =>
    rw [segment_step_punct hp]
    unfold segment_step_nrc
    rw [hp]
  | none =>
    cases hm : try_lengths line start dict MAX_CHINESE_BYTES with
    | some ml =>
      rw [segment_step_word hp hm]
      unfold segment_step_nrc
      rw [hp, hm]
    | none =>
      rw [segment_step_fall hp hm]
      unfold segment_step_nrc
      rw [hp, hm, check_punct_take hp (get_utf8_char_len (line.drop start))]
      simp

theorem seg_iter_eq_nrc (line : List Nat) (dict stops : List (List Nat)) :
    ∀ fuel start,
      segment_iter line dict stops fuel start =
        segment_iter_nrc line dict stops fuel start := by
  intro fuel
  induction fuel with
  | zero =>
    intro start
    rfl
  | succ f ih =>
    intro start
    by_cases hlt : start < line.length
    · rw [segment_iter_succ hlt, segment_iter_nrc_succ hlt,
        ← segment_step_eq_nrc, ih]
    · rw [segment_iter_stop hlt, segment_iter_nrc_stop hlt]

/-! ## Frequency table lemmas -/

theorem get_count_bump_self : ∀ (counts : List (List Nat × Nat)) (tok : List Nat),
    get_count (bump_counts counts tok) tok = get_count counts tok + 1 := by
  intro counts tok
  induction counts with
  | nil => simp [bump_counts, get_count]
  | cons e rest ih =>
    obtain ⟨w, c⟩ := e
    by_cases hw : w = tok
    · simp [bump_counts, get_count, hw]
    · simp only [bump_counts, get_count, if_neg hw]
      exact ih

theorem get_count_bump_ne : ∀ (counts : List (List Nat × Nat)) (w tok : List Nat),
    w ≠ tok → get_count (bump_counts counts w) tok = get_count counts tok := by
  intro counts w tok hne
  induction counts with
  | nil => simp [bump_counts, get_count, hne]
  | cons e rest ih =>
    obtain ⟨u, c⟩ := e
    by_cases hu : u = w
    · subst hu
      simp [bump_counts, get_count, hne]
    · by_cases hut : u = tok
      · simp [bump_counts, get_count, hu, hut, Ne.symm hne]
      · simp only [bump_counts, get_count, if_neg hu, if_neg hut]
        exact ih

theorem get_count_foldl_notmem : ∀ (toks : List (List Nat)) (t : FreqTable)
    (tok : List Nat), tok ∉ toks →
    get_count ((toks.foldl add_token_count t).counts) tok =
      get_count t.counts tok := by
  intro toks
  induction toks with
  | nil =>
    intro t tok _
    rfl
  | cons w ws ih =>
    intro t tok h
    have h1 : tok ≠ w := fun he => h (by simp [he])
    have h2 : tok ∉ ws := fun he => h (by simp [he])
    rw [List.foldl_cons, ih _ _ h2]
    exact get_count_bump_ne _ _ _ (fun he => h1 he.symm)

/-- The counter update runs exactly on the emitted tokens, in order. -/
theorem run_record_eq_emitted : ∀ (trace : List SegStep) (t : FreqTable),
    run_record t trace = (emitted trace).foldl add_token_count t := by
  intro trace
  induction trace with
  | nil =>
    intro t
    rfl
  | cons s rest ih =>
    intro t
    show run_record (stepRecord t s) rest = _
    cases hst : stepTok s with
    | none =>
      rw [emitted_cons_none hst, ih]
      have he : stepRecord t s = t := by
        unfold stepRecord
        rw [hst]
      rw [he]
    | some tok =>
      rw [emitted_cons_some hst, ih, List.foldl_cons]
      have he : stepRecord t s = add_token_count t tok := by
        unfold stepRecord
        rw [hst]
      rw [he]

/-! ## Sorting -/

theorem sorted_sort_wordcounts (l : List (List Nat × Nat)) :
    List.Pairwise (fun a b : List Nat × Nat => b.2 ≤ a.2) (sort_wordcounts l) := by
  have hs := List.sorted_insertionSort wc_le l
  refine hs.imp ?_
  intro a b hab
  unfold wc_le cmp_wordcount at hab
  omega

theorem top_report_sorted (l : List (List Nat × Nat)) :
    List.Pairwise (fun a b : List Nat × Nat => b.2 ≤ a.2) (top_report l) :=
  (sorted_sort_wordcounts l).sublist (List.take_sublist _ _)

/-! ## Claim theorems -/

/-- C1: at any cursor position where the punctuation check fails, the
tokenizer tries candidate byte lengths 21 down to 1 in strictly
descending order, skipping lengths that overrun the line, and consumes
the first (longest) length whose substring is a dictionary member: a
returned length is a dictionary member, fits in the line, and no longer
admissible length is a member; with dictionary {中国, 中国人} and no
stopwords, input 中国人 emits exactly the one token 中国人. -/
theorem claim_C1_longest_match :
    (∀ (line : List Nat) (dict stops : List (List Nat)) (start L : Nat),
      check_punctuation (line.drop start) = none →
      try_lengths line start dict MAX_CHINESE_BYTES = some L →
      1 ≤ L ∧ L ≤ MAX_CHINESE_BYTES ∧ start + L ≤ line.length ∧
        dict_contains dict ((line.drop start).take L) = true ∧
        (∀ L', L < L' → L' ≤ MAX_CHINESE_BYTES → start + L' ≤ line.length →
          dict_contains dict ((line.drop start).take L') = false) ∧
        segment_step line dict stops start =
          SegStep.word start L ((line.drop start).take L)
            (!is_stopword ((line.drop start).take L) stops)) ∧
    emitted (segment_line_in_memory
        [228, 184, 173, 229, 155, 189, 228, 186, 186]
        [[228, 184, 173, 229, 155, 189],
         [228, 184, 173, 229, 155, 189, 228, 186, 186]] []) =
      [[228, 184, 173, 229, 155, 189, 228, 186, 186]] := by
  constructor
  · intro line dict stops start L hp hm
    obtain ⟨h1, h2, h3, h4, h5⟩ := try_lengths_spec _ hm
    exact ⟨h1, h2, h3, h4, h5, segment_step_word hp hm⟩
  · rfl

/-- Witness for C1: on the line 中国 with dictionary {中国} the match
loop returns length 6 and the loop body consumes it as a word step. -/
theorem claim_C1_witness :
    segment_step [228, 184, 173, 229, 155, 189]
        [[228, 184, 173, 229, 155, 189]] [] 0 =
      SegStep.word 0 6 ((([228, 184, 173, 229, 155, 189] : List Nat).drop 0).take 6)
        (!is_stopword ((([228, 184, 173, 229, 155, 189] : List Nat).drop 0).take 6) []) :=
  (claim_C1_longest_match.1 _ _ _ 0 6 (by decide) (by decide)).2.2.2.2.2

/-- C2: every loop iteration advances the cursor by at least one byte,
the loop makes at most `line.length` iterations, and a budget of
`line.length` iterations runs the cursor to (or past) the end of the
line. -/
theorem claim_C2_progress_termination :
    ∀ (line : List Nat) (dict stops : List (List Nat)),
      (∀ s ∈ segment_line_in_memory line dict stops, 1 ≤ stepLen s) ∧
      (segment_line_in_memory line dict stops).length ≤ line.length ∧
      line.length ≤ finalPos (segment_line_in_memory line dict stops) 0 := by
  intro line dict stops
  refine ⟨fun s hs => mem_seg_stepLen_pos line dict stops _ _ _ hs, ?_, ?_⟩
  · have h := seg_iter_length_le line dict stops line.length 0
    show (segment_iter line dict stops line.length 0).length ≤ line.length
    omega
  · exact seg_iter_complete line dict stops line.length 0 (by omega)

/-- Witness for C2: the single fallback step on the one-byte line with
the letter A advances the cursor by one byte. -/
theorem claim_C2_witness :
    1 ≤ stepLen (SegStep.fall 0 1 [65] true) :=
  (claim_C2_progress_termination [65] [] []).1 (SegStep.fall 0 1 [65] true)
    (by decide)

/-- Counterexample to C3 as stated: on the line consisting of the lone
lead byte 0xE4, the single fallback step consumes 3 bytes, so the
consumed spans do not exactly reconstruct the 1-byte line (the last
span overruns its end). -/
theorem claim_C3_counterexample :
    covers (segment_line_in_memory [228] [] []) 0 (([228] : List Nat).length) = false ∧
      finalPos (segment_line_in_memory [228] [] []) 0 = 3 := by
  constructor <;> rfl

/-- C3 (amended): for every line that is a concatenation of complete
scanner codepoints and every dictionary whose entries are as well, the
byte spans consumed by the loop iterations, in order, tile the interval
from 0 to the byte length of the line exactly — no gaps, no overlaps,
no overrun. -/
theorem claim_C3_coverage :
    ∀ (line : List Nat) (dict stops : List (List Nat)),
      utf8_wf line = true → (∀ w ∈ dict, utf8_wf w = true) →
      covers (segment_line_in_memory line dict stops) 0 line.length = true := by
  intro line dict stops hline hdict
  exact seg_iter_covers_wf line dict stops hdict line.length 0 (by omega)
    (by omega) (by simpa using hline)

/-- Witness for C3: on the well-formed line 中国人 with dictionary
{中国} the consumed spans tile the full byte range exactly. -/
theorem claim_C3_witness :
    covers (segment_line_in_memory [228, 184, 173, 229, 155, 189, 228, 186, 186]
        [[228, 184, 173, 229, 155, 189]] []) 0
      (([228, 184, 173, 229, 155, 189, 228, 186, 186] : List Nat).length) = true :=
  claim_C3_coverage _ _ _ (by decide) (by decide)

/-- C4: punctuation classification has priority over dictionary
matching: whenever the punctuation check matches, the iteration is a
punctuation step that emits nothing and leaves the frequency state
unchanged; the full-width comma is never emitted on any input and its
frequency count never changes; with a dictionary containing the comma,
the comma line emits nothing. -/
theorem claim_C4_punct_priority :
    (∀ (line : List Nat) (dict stops : List (List Nat)) (start pl : Nat),
      check_punctuation (line.drop start) = some pl →
      segment_step line dict stops start = SegStep.punct start pl ∧
        stepTok (segment_step line dict stops start) = none ∧
        ∀ t, stepRecord t (segment_step line dict stops start) = t) ∧
    (∀ (line : List Nat) (dict stops : List (List Nat)),
      [0xef, 0xbc, 0x8c] ∉ emitted (segment_line_in_memory line dict stops) ∧
      ∀ t, get_count ((run_record t (segment_line_in_memory line dict stops)).counts)
          [0xef, 0xbc, 0x8c] = get_count t.counts [0xef, 0xbc, 0x8c]) ∧
    emitted (segment_line_in_memory [0xef, 0xbc, 0x8c] [[0xef, 0xbc, 0x8c]] []) = [] := by
  refine ⟨?_, ?_, rfl⟩
  · intro line dict stops start pl hp
    refine ⟨segment_step_punct hp, ?_, ?_⟩
    · rw [segment_step_punct hp]
      rfl
    · intro t
      rw [segment_step_punct hp]
      rfl
  · intro line dict stops
    have hnot := comma_not_emitted_iter line dict stops line.length 0
    refine ⟨hnot, fun t => ?_⟩
    rw [run_record_eq_emitted]
    exact get_count_foldl_notmem _ _ _ hnot

/-- Witness for C4: on the comma line with the comma in the dictionary,
the loop body is a punctuation step. -/
theorem claim_C4_witness :
    segment_step [0xef, 0xbc, 0x8c] [[0xef, 0xbc, 0x8c]] [] 0 = SegStep.punct 0 3 :=
  (claim_C4_punct_priority.1 _ _ _ 0 3 (by decide)).1

/-- C5: when the longest dictionary match at the cursor is also a
stopword, the iteration emits no token and leaves the frequency state
unchanged, but still advances the cursor by the byte length of the
match; with dictionary {的} and stopwords {的}, input 的 emits zero
tokens while the bytes consumed equal the line length. -/
theorem claim_C5_stopword_suppression :
    (∀ (line : List Nat) (dict stops : List (List Nat)) (start L : Nat),
      check_punctuation (line.drop start) = none →
      try_lengths line start dict MAX_CHINESE_BYTES = some L →
      is_stopword ((line.drop start).take L) stops = true →
      segment_step line dict stops start =
          SegStep.word start L ((line.drop start).take L) false ∧
        stepTok (segment_step line dict stops start) = none ∧
        (∀ t, stepRecord t (segment_step line dict stops start) = t) ∧
        stepLen (segment_step line dict stops start) = L) ∧
    emitted (segment_line_in_memory [231, 154, 132] [[231, 154, 132]]
        [[231, 154, 132]]) = [] ∧
    finalPos (segment_line_in_memory [231, 154, 132] [[231, 154, 132]]
        [[231, 154, 132]]) 0 = ([231, 154, 132] : List Nat).length := by
  refine ⟨?_, rfl, rfl⟩
  intro line dict stops start L hp hm hs
  have hstep : segment_step line dict stops start =
      SegStep.word start L ((line.drop start).take L) false := by
    rw [segment_step_word hp hm, hs]
    rfl
  refine ⟨hstep, ?_, ?_, ?_⟩
  · rw [hstep]
    rfl
  · intro t
    rw [hstep]
    rfl
  · rw [hstep]
    rfl

/-- Witness for C5: on the line 的 with 的 both in the dictionary and in
the stopwords, the loop body is a suppressed word step of length 3. -/
theorem claim_C5_witness :
    segment_step [231, 154, 132] [[231, 154, 132]] [[231, 154, 132]] 0 =
      SegStep.word 0 3 ((([231, 154, 132] : List Nat).drop 0).take 3) false :=
  (claim_C5_stopword_suppression.1 _ _ _ 0 3 (by decide) (by decide) (by decide)).1

set_option maxRecDepth 4096 in
/-- C6: the UTF-8 scanner returns 1 for a lead byte with high bit 0, 2
for a `110xxxxx` byte, 3 for a `1110xxxx` byte, and 1 for any other
byte, and its result is always at least 1, for every byte string. -/
theorem claim_C6_utf8_scanner :
    (∀ (b : Nat) (rest : List Nat), b < 256 →
      (b &&& 0x80 = 0 → get_utf8_char_len (b :: rest) = 1) ∧
      (b &&& 0xE0 = 0xC0 → get_utf8_char_len (b :: rest) = 2) ∧
      (b &&& 0xF0 = 0xE0 → get_utf8_char_len (b :: rest) = 3) ∧
      (¬ b &&& 0x80 = 0 → ¬ b &&& 0xE0 = 0xC0 → ¬ b &&& 0xF0 = 0xE0 →
        get_utf8_char_len (b :: rest) = 1)) ∧
    ∀ s : List Nat, 1 ≤ get_utf8_char_len s := by
  constructor
  · intro b rest hb
    have hh : get_utf8_char_len (b :: rest) = get_utf8_char_len [b] :=
      get_len_congr (by simp)
    rw [hh]
    revert hb
    have hall : ∀ b' : Nat, b' < 256 →
        (b' &&& 0x80 = 0 → get_utf8_char_len [b'] = 1) ∧
        (b' &&& 0xE0 = 0xC0 → get_utf8_char_len [b'] = 2) ∧
        (b' &&& 0xF0 = 0xE0 → get_utf8_char_len [b'] = 3) ∧
        (¬ b' &&& 0x80 = 0 → ¬ b' &&& 0xE0 = 0xC0 → ¬ b' &&& 0xF0 = 0xE0 →
          get_utf8_char_len [b'] = 1) := by decide
    exact hall b
  · exact get_len_pos

/-- Witness for C6: the lead byte 0xE4 of 中 matches `1110xxxx` and the
scanner returns 3. -/
theorem claim_C6_witness : get_utf8_char_len [228] = 3 :=
  ((claim_C6_utf8_scanner.1 228 [] (by decide)).2.2.1) (by decide)

/-- C7: recording a token increments its count by exactly one (so a
present token is incremented and an unseen one enters with count 1)
and increments the total by one per call; from any table state,
recording the same token 5 times raises its count by 5 and the total
by 5 (calls, not distinct tokens). -/
theorem claim_C7_frequency :
    ∀ (t : FreqTable) (tok : List Nat),
      get_count ((add_token_count t tok).counts) tok = get_count t.counts tok + 1 ∧
      (add_token_count t tok).total = t.total + 1 ∧
      get_count ((add_token_count (add_token_count (add_token_count
          (add_token_count (add_token_count t tok) tok) tok) tok) tok).counts) tok =
        get_count t.counts tok + 5 ∧
      (add_token_count (add_token_count (add_token_count (add_token_count
          (add_token_count t tok) tok) tok) tok) tok).total = t.total + 5 := by
  intro t tok
  refine ⟨get_count_bump_self _ _, rfl, ?_, rfl⟩
  show get_count (bump_counts (bump_counts (bump_counts (bump_counts
      (bump_counts t.counts tok) tok) tok) tok) tok) tok = _
  rw [get_count_bump_self, get_count_bump_self, get_count_bump_self,
    get_count_bump_self, get_count_bump_self]

/-- Counterexample to C8 as stated: with the (ill-formed) dictionary
entry consisting of the single lead byte 0xE4, the line 中 emits the
token with that one byte, which ends at byte offset 1 — not a codepoint
boundary of the line. -/
theorem claim_C8_counterexample :
    (0, ([228] : List Nat)) ∈
        tokens_of (segment_line_in_memory [228, 184, 173] [[228]] []) ∧
      ¬ (0 + ([228] : List Nat).length) ∈ utf8_cuts [228, 184, 173] := by
  constructor
  · decide
  · decide

/-- C8 (amended): every emitted token is 1 to 21 bytes long, on any
input whatsoever; and when the line and every dictionary entry are
concatenations of complete scanner codepoints, every emitted token
begins and ends on a codepoint boundary of the line. -/
theorem claim_C8_token_shape :
    (∀ (line : List Nat) (dict stops : List (List Nat)) (p : Nat) (tok : List Nat),
      (p, tok) ∈ tokens_of (segment_line_in_memory line dict stops) →
      1 ≤ tok.length ∧ tok.length ≤ 21) ∧
    (∀ (line : List Nat) (dict stops : List (List Nat)),
      utf8_wf line = true → (∀ w ∈ dict, utf8_wf w = true) →
      ∀ (p : Nat) (tok : List Nat),
        (p, tok) ∈ tokens_of (segment_line_in_memory line dict stops) →
        p ∈ utf8_cuts line ∧ p + tok.length ∈ utf8_cuts line) := by
  constructor
  · intro line dict stops p tok h
    exact seg_iter_tok_len line dict stops _ _ _ _ h
  · intro line dict stops hline hdict p tok h
    exact seg_iter_tok_aligned line dict stops hdict line.length 0 (by omega)
      (utf8_cuts_zero line) (by simpa using hline) p tok h

/-- Witness for C8: on the well-formed line 中国人 with dictionary
{中国人}, the emitted token starts at boundary 0 and ends at
boundary 9. -/
theorem claim_C8_witness :
    (0 : Nat) ∈ utf8_cuts [228, 184, 173, 229, 155, 189, 228, 186, 186] ∧
      0 + ([228, 184, 173, 229, 155, 189, 228, 186, 186] : List Nat).length ∈
        utf8_cuts [228, 184, 173, 229, 155, 189, 228, 186, 186] :=
  claim_C8_token_shape.2 [228, 184, 173, 229, 155, 189, 228, 186, 186]
    [[228, 184, 173, 229, 155, 189, 228, 186, 186]] [] (by decide) (by decide)
    0 [228, 184, 173, 229, 155, 189, 228, 186, 186] (by decide)

/-- C9: the top-N report lists entries in non-increasing order of
count — the comparator compares counts only — so every earlier reported
entry has a count at least that of every later one. -/
theorem claim_C9_sort_descending :
    (∀ l : List (List Nat × Nat),
      List.Pairwise (fun a b : List Nat × Nat => b.2 ≤ a.2) (top_report l)) ∧
    (∀ a b a' b' : List Nat × Nat, a.2 = a'.2 → b.2 = b'.2 →
      cmp_wordcount a b = cmp_wordcount a' b') := by
  constructor
  · exact top_report_sorted
  · intro a b a' b' h1 h2
    unfold cmp_wordcount
    rw [h1, h2]

/-- Witness for C9: the comparator gives the same answer on pairs with
the same counts and different words. -/
theorem claim_C9_witness :
    cmp_wordcount ([1], 5) ([2], 3) = cmp_wordcount ([9, 9], 5) ([], 3) :=
  claim_C9_sort_descending.2 ([1], 5) ([2], 3) ([9, 9], 5) ([], 3) rfl rfl

/-- C10: the punctuation re-check inside the fallback branch never
succeeds — whenever the top-of-loop punctuation check on the remainder
fails, the check on any extracted prefix fails too — so the tokenizer
equals the variant without the re-check, in which a fallback codepoint
is emitted exactly when it is not a stopword. -/
theorem claim_C10_recheck_redundant :
    (∀ (s : List Nat) (n : Nat), check_punctuation s = none →
      check_punctuation (s.take n) = none) ∧
    (∀ (line : List Nat) (dict stops : List (List Nat)),
      segment_line_in_memory line dict stops = segment_line_nrc line dict stops) := by
  constructor
  · intro s n h
    exact check_punct_take h n
  · intro line dict stops
    exact seg_iter_eq_nrc line dict stops line.length 0

/-- Witness for C10: the extracted codepoint of 中 is not punctuation,
as the re-check theorem instantiates. -/
theorem claim_C10_witness :
    check_punctuation (([228, 184, 173] : List Nat).take 3) = none :=
  claim_C10_recheck_redundant.1 [228, 184, 173] 3 (by decide)

end Lab1
